import Mathlib

/-!
Shallow embedding of the poker hand-evaluation and Monte-Carlo simulation
engine from `src/card/mod.rs` and theorems checking the specification's
claims against it.

Rust `HashMap` iteration order is unspecified (randomized per map instance),
so every function that iterates over the `count_ranks` map takes the
iteration order as an explicit parameter: a list of ranks standing for the
key sequence the map hands out.  A valid order is any permutation of the
map's key set (`ValidOrders` below).
-/

namespace Poker

inductive Suit where
  | Spades | Hearts | Diamonds | Clubs
deriving DecidableEq, Fintype

inductive Rank where
  | Two | Three | Four | Five | Six | Seven | Eight | Nine | Ten
  | Jack | Queen | King | Ace
deriving DecidableEq, Fintype

/-- Numeric value of a rank, as in the Rust `enum Rank` discriminants (2..14). -/
def Rank.value : Rank → Nat
  | .Two => 2 | .Three => 3 | .Four => 4 | .Five => 5 | .Six => 6
  | .Seven => 7 | .Eight => 8 | .Nine => 9 | .Ten => 10
  | .Jack => 11 | .Queen => 12 | .King => 13 | .Ace => 14

/-- `Suit::from_number`: 1=Spades, 2=Hearts, 3=Diamonds, 4=Clubs, else None. -/
def Suit.from_number (num : Nat) : Option Suit :=
  match num with
  | 1 => some .Spades
  | 2 => some .Hearts
  | 3 => some .Diamonds
  | 4 => some .Clubs
  | _ => none

/-- `Rank::from_number`: 1=Ace, 2..10 face value, 11=Jack, 12=Queen, 13=King. -/
def Rank.from_number (num : Nat) : Option Rank :=
  match num with
  | 1 => some .Ace
  | 2 => some .Two
  | 3 => some .Three
  | 4 => some .Four
  | 5 => some .Five
  | 6 => some .Six
  | 7 => some .Seven
  | 8 => some .Eight
  | 9 => some .Nine
  | 10 => some .Ten
  | 11 => some .Jack
  | 12 => some .Queen
  | 13 => some .King
  | _ => none

structure Card where
  rank : Rank
  suit : Suit
deriving DecidableEq, Fintype

/-- `Card::from_numbers`. -/
def Card.from_numbers (rank_num suit_num : Nat) : Option Card :=
  match Rank.from_number rank_num, Suit.from_number suit_num with
  | some r, some s => some ⟨r, s⟩
  | _, _ => none

/-- Descending-by-rank order used by `sort_by(|a, b| b.rank.cmp(&a.rank))`. -/
def cardGE (a b : Card) : Prop := b.rank.value ≤ a.rank.value

instance : DecidableRel cardGE := fun a b => Nat.decLe b.rank.value a.rank.value

instance : IsTotal Card cardGE := ⟨fun a b => Nat.le_total b.rank.value a.rank.value⟩

instance : IsTrans Card cardGE := ⟨fun _ _ _ h h' => Nat.le_trans h' h⟩

/-- Descending order on ranks used by `sort_by(|a, b| b.cmp(a))` on `Vec<Rank>`. -/
def rankGE (a b : Rank) : Prop := b.value ≤ a.value

instance : DecidableRel rankGE := fun a b => Nat.decLe b.value a.value

instance : IsTotal Rank rankGE := ⟨fun a b => Nat.le_total b.value a.value⟩

instance : IsTrans Rank rankGE := ⟨fun _ _ _ h h' => Nat.le_trans h' h⟩

/-- Rust's `Vec::sort_by` with the descending rank comparator (stable sort). -/
def sortCardsDesc (l : List Card) : List Card := List.insertionSort cardGE l

/-- Descending stable sort of a rank list. -/
def sortRanksDesc (l : List Rank) : List Rank := List.insertionSort rankGE l

inductive HandRank where
  | HighCard | Pair | TwoPair | ThreeOfAKind | Straight
  | Flush | FullHouse | FourOfAKind | StraightFlush | RoyalFlush
deriving DecidableEq

/-- Discriminant values of the Rust `enum HandRank` (1..10), used by `Ord`. -/
def HandRank.toNat : HandRank → Nat
  | .HighCard => 1 | .Pair => 2 | .TwoPair => 3 | .ThreeOfAKind => 4
  | .Straight => 5 | .Flush => 6 | .FullHouse => 7 | .FourOfAKind => 8
  | .StraightFlush => 9 | .RoyalFlush => 10

structure HandEvaluation where
  rank : HandRank
  high_cards : List Rank
deriving DecidableEq

/-- `count_ranks(cards)` viewed as a lookup function: the multiplicity of
rank `r` among `cards` (a missing key reads as 0). -/
def count_ranks (cards : List Card) (r : Rank) : Nat :=
  (cards.filter fun c => decide (c.rank = r)).length

def all_suits : List Suit := [.Spades, .Hearts, .Diamonds, .Clubs]

/-- The window scan inside `find_straight`: on the descending list of
distinct ranks, return the first rank opening a window of five consecutive
values (the loop `for i in 0..=len-5` with four adjacency checks). -/
def scanRun : List Rank → Option Rank
  | a :: b :: c :: d :: e :: rest =>
    if a.value = b.value + 1 ∧ b.value = c.value + 1 ∧
       c.value = d.value + 1 ∧ d.value = e.value + 1 then
      some a
    else
      scanRun (b :: c :: d :: e :: rest)
  | _ => none

/-- `find_straight`: deduplicate, sort descending, scan for a run of five;
otherwise check for the wheel A-2-3-4-5 and report Five as its high card. -/
def find_straight (ranks : List Rank) : Option Rank :=
  let sorted_ranks := sortRanksDesc ranks.dedup
  match scanRun sorted_ranks with
  | some h => some h
  | none =>
    if Rank.Ace ∈ sorted_ranks ∧ Rank.Two ∈ sorted_ranks ∧
       Rank.Three ∈ sorted_ranks ∧ Rank.Four ∈ sorted_ranks ∧
       Rank.Five ∈ sorted_ranks then
      some Rank.Five
    else
      none

/-- `check_royal_flush`. -/
def check_royal_flush (cards : List Card) : Option HandEvaluation :=
  all_suits.findSome? fun s =>
    let suit_cards := cards.filter fun c => decide (c.suit = s)
    if 5 ≤ suit_cards.length ∧
       ([Rank.Ace, Rank.King, Rank.Queen, Rank.Jack, Rank.Ten].all fun r =>
         suit_cards.any fun c => decide (c.rank = r)) then
      some ⟨.RoyalFlush, [Rank.Ace]⟩
    else
      none

/-- `check_straight_flush`. -/
def check_straight_flush (cards : List Card) : Option HandEvaluation :=
  all_suits.findSome? fun s =>
    let suit_cards := sortCardsDesc (cards.filter fun c => decide (c.suit = s))
    (find_straight (suit_cards.map Card.rank)).map fun h => ⟨.StraightFlush, [h]⟩

/-- `check_four_of_a_kind`; `o` is the iteration order of the rank-count map. -/
def check_four_of_a_kind (o : List Rank) (cards : List Card) : Option HandEvaluation :=
  (o.find? fun r => decide (4 ≤ count_ranks cards r)).map fun r =>
    let kicker := ((cards.find? fun c => decide (c.rank ≠ r)).map Card.rank).getD Rank.Two
    ⟨.FourOfAKind, [r, kicker]⟩

/-- The mutable trips/pair scan of `check_full_house` over the map entries. -/
def fullHouseScan (cards : List Card) :
    List Rank → Option Rank → Option Rank → Option Rank × Option Rank
  | [], trips, pair => (trips, pair)
  | r :: rest, trips, pair =>
    if 3 ≤ count_ranks cards r ∧ trips = none then
      fullHouseScan cards rest (some r) pair
    else if 2 ≤ count_ranks cards r ∧ pair = none then
      fullHouseScan cards rest trips (some r)
    else
      fullHouseScan cards rest trips pair

/-- `check_full_house`; `o` is the iteration order of the rank-count map. -/
def check_full_house (o : List Rank) (cards : List Card) : Option HandEvaluation :=
  match fullHouseScan cards o none none with
  | (some trips_rank, some pair_rank) => some ⟨.FullHouse, [trips_rank, pair_rank]⟩
  | _ => none

/-- `check_flush`. -/
def check_flush (cards : List Card) : Option HandEvaluation :=
  all_suits.findSome? fun s =>
    let suit_cards := cards.filter fun c => decide (c.suit = s)
    if 5 ≤ suit_cards.length then
      some ⟨.Flush, ((sortCardsDesc suit_cards).map Card.rank).take 5⟩
    else
      none

/-- `check_straight`. -/
def check_straight (cards : List Card) : Option HandEvaluation :=
  (find_straight (cards.map Card.rank)).map fun h => ⟨.Straight, [h]⟩

/-- `check_three_of_a_kind`; `o` is the iteration order of the rank-count map. -/
def check_three_of_a_kind (o : List Rank) (cards : List Card) : Option HandEvaluation :=
  (o.find? fun r => decide (3 ≤ count_ranks cards r)).map fun r =>
    let kickers :=
      (sortRanksDesc ((cards.filter fun c => decide (c.rank ≠ r)).map Card.rank)).take 2
    ⟨.ThreeOfAKind, r :: kickers⟩

/-- `check_two_pair`; `o` is the iteration order of the rank-count map. -/
def check_two_pair (o : List Rank) (cards : List Card) : Option HandEvaluation :=
  match sortRanksDesc (o.filter fun r => decide (2 ≤ count_ranks cards r)) with
  | p0 :: p1 :: _ =>
    let kicker :=
      ((cards.find? fun c => decide (c.rank ≠ p0 ∧ c.rank ≠ p1)).map Card.rank).getD Rank.Two
    some ⟨.TwoPair, [p0, p1, kicker]⟩
  | _ => none

/-- `check_pair`; `o` is the iteration order of the rank-count map. -/
def check_pair (o : List Rank) (cards : List Card) : Option HandEvaluation :=
  (o.find? fun r => decide (2 ≤ count_ranks cards r)).map fun r =>
    let kickers :=
      (sortRanksDesc ((cards.filter fun c => decide (c.rank ≠ r)).map Card.rank)).take 3
    ⟨.Pair, r :: kickers⟩

/-- The five `count_ranks` map iteration orders consumed by one
`evaluate_hand` call (each check builds its own `HashMap`). -/
structure Orders where
  o4 : List Rank
  ofh : List Rank
  o3 : List Rank
  o2 : List Rank
  op : List Rank

/-- The cascade of checks in `evaluate_hand`, applied to the sorted card list. -/
def evalSorted (os : Orders) (all_cards : List Card) : HandEvaluation :=
  match check_royal_flush all_cards with
  | some e => e
  | none =>
  match check_straight_flush all_cards with
  | some e => e
  | none =>
  match check_four_of_a_kind os.o4 all_cards with
  | some e => e
  | none =>
  match check_full_house os.ofh all_cards with
  | some e => e
  | none =>
  match check_flush all_cards with
  | some e => e
  | none =>
  match check_straight all_cards with
  | some e => e
  | none =>
  match check_three_of_a_kind os.o3 all_cards with
  | some e => e
  | none =>
  match check_two_pair os.o2 all_cards with
  | some e => e
  | none =>
  match check_pair os.op all_cards with
  | some e => e
  | none => ⟨.HighCard, (all_cards.map Card.rank).take 5⟩

/-- `evaluate_hand(hole_cards, community_cards)`. -/
def evaluate_hand (os : Orders) (hole : Card × Card) (community : List Card) :
    HandEvaluation :=
  evalSorted os (sortCardsDesc (hole.1 :: hole.2 :: community))

/-- Distinct ranks occurring among `cards`: the key set of `count_ranks`. -/
def rankKeys (cards : List Card) : List Rank := (cards.map Card.rank).dedup

/-- The orders are genuine iteration sequences of the five rank-count maps:
each is a permutation of the key set. -/
def ValidOrders (os : Orders) (cards : List Card) : Prop :=
  List.Perm os.o4 (rankKeys cards) ∧ List.Perm os.ofh (rankKeys cards) ∧
  List.Perm os.o3 (rankKeys cards) ∧ List.Perm os.o2 (rankKeys cards) ∧
  List.Perm os.op (rankKeys cards)

instance (os : Orders) (cards : List Card) : Decidable (ValidOrders os cards) := by
  unfold ValidOrders
  infer_instance

/-- Integer comparison, as Rust's `Ord::cmp` on the enum discriminants. -/
def natCompare (a b : Nat) : Ordering :=
  if a < b then .lt else if b < a then .gt else .eq

/-- Lexicographic comparison of `Vec<Rank>` under the derived `Ord`
(element-wise on rank value; a strict prefix is smaller). -/
def rankListCompare : List Rank → List Rank → Ordering
  | [], [] => .eq
  | [], _ :: _ => .lt
  | _ :: _, [] => .gt
  | x :: xs, y :: ys =>
    match natCompare x.value y.value with
    | .eq => rankListCompare xs ys
    | o => o

/-- `verify(hand_a, hand_b, community_cards)`: evaluate both hands and
name the winner ("Hand A" / "Hand B" / "Tie"). -/
def verify (osA osB : Orders) (hand_a hand_b : Card × Card) (community : List Card) :
    String × HandEvaluation × HandEvaluation :=
  let eval_a := evaluate_hand osA hand_a community
  let eval_b := evaluate_hand osB hand_b community
  let winner :=
    match natCompare eval_a.rank.toNat eval_b.rank.toNat with
    | .gt => "Hand A"
    | .lt => "Hand B"
    | .eq =>
      match rankListCompare eval_a.high_cards eval_b.high_cards with
      | .gt => "Hand A"
      | .lt => "Hand B"
      | .eq => "Tie"
  (winner, eval_a, eval_b)

/-- The 52-card construction `for suit_num in 1..=4 { for rank_num in 1..=13 }`
shared by `Deck::new` and `generate_all_starting_hands`. -/
def fullDeckCards : List Card :=
  (List.range' 1 4).flatMap fun suit_num =>
    (List.range' 1 13).filterMap fun rank_num => Card.from_numbers rank_num suit_num

/-- Placeholder card for positional lookups that are always in bounds. -/
def defaultCard : Card := ⟨.Two, .Spades⟩

structure Deck where
  cards : List Card
  used_cards : List Card
deriving DecidableEq

def Deck.new : Deck := ⟨fullDeckCards, []⟩

/-- `Deck::draw`: pick the card at a random index (`i` is the raw random
value, reduced modulo the number of available cards), move it to the used
pile.  Returns the drawn card and the successor deck state. -/
def Deck.draw (d : Deck) (i : Nat) : Option (Card × Deck) :=
  if d.cards.isEmpty then
    none
  else
    let index := i % d.cards.length
    let card := d.cards.getD index defaultCard
    some (card, ⟨d.cards.eraseIdx index, d.used_cards ++ [card]⟩)

/-- `Deck::add`. -/
def Deck.add (d : Deck) (card : Card) : Except String Deck :=
  if card ∈ d.used_cards then
    .error "Card has already been used"
  else if card ∈ d.cards then
    .error "Card is already in the deck"
  else
    let d' : Deck :=
      match d.used_cards.findIdx? fun c => decide (c = card) with
      | some pos => ⟨d.cards, d.used_cards.eraseIdx pos⟩
      | none => d
    .ok ⟨d'.cards ++ [card], d'.used_cards⟩

/-- `Deck::remove_card`. -/
def Deck.remove_card (d : Deck) (card : Card) : Except String Deck :=
  match d.cards.findIdx? fun c => decide (c = card) with
  | some pos => .ok ⟨d.cards.eraseIdx pos, d.used_cards ++ [d.cards.getD pos defaultCard]⟩
  | none => .error "Card not found in deck"

structure SimulationResults where
  total_games : Nat
  wins : Nat
  losses : Nat
  ties : Nat
  win_rate : ℚ
  tie_rate : ℚ

/-- `SimulationResults::new` (floating-point rates modeled exactly in ℚ). -/
def SimulationResults.new (total_games wins losses ties : Nat) : SimulationResults :=
  { total_games := total_games, wins := wins, losses := losses, ties := ties,
    win_rate := (wins : ℚ) / (total_games : ℚ) * 100,
    tie_rate := (ties : ℚ) / (total_games : ℚ) * 100 }

/-- Draw up to `k` cards (`for _ in 0..k { if let Some = draw ... else break }`);
`rng t` supplies the random value of the draw at offset `t`. -/
def drawSeq (rng : Nat → Nat) : Nat → Nat → Deck → List Card × Deck
  | _, 0, d => ([], d)
  | t, k + 1, d =>
    match d.draw (rng t) with
    | none => ([], d)
    | some (c, d') =>
      let rest := drawSeq rng (t + 1) k d'
      (c :: rest.1, rest.2)

/-- The removal step of the simulation loops: `remove_card`, keeping the
deck unchanged on failure (the `continue` in the Rust source only skips the
inner removal loop iteration, so a failed removal is silently ignored). -/
def removeOr (d : Deck) (c : Card) : Deck :=
  match d.remove_card c with
  | .ok x => x
  | .error _ => d

/-- One iteration of the `monte_carlo_simulation` loop: fresh deck, remove
the player's cards (a failed removal is ignored), deal the opponent and the
board, skip the trial (`none`) if the board is short, else report the
winner. -/
def runTrial (player : Card × Card) (os : Orders × Orders) (rng : Nat → Nat) :
    Option String :=
  let deck2 := removeOr (removeOr Deck.new player.1) player.2
  match deck2.draw (rng 0) with
  | none => none
  | some (o1, deck3) =>
    match deck3.draw (rng 1) with
    | none => none
    | some (o2, deck4) =>
      let cd := drawSeq (fun k => rng (k + 2)) 0 5 deck4
      if cd.1.length < 5 then
        none
      else
        some (verify os.1 os.2 player (o1, o2) cd.1).1

/-- The win/loss/tie tallying of one loop iteration. -/
def mcStep (player : Card × Card) (rngs : Nat → Nat → Nat) (oss : Nat → Orders × Orders)
    (acc : Nat × Nat × Nat) (i : Nat) : Nat × Nat × Nat :=
  match runTrial player (oss i) (rngs i) with
  | some w =>
    if w = "Hand A" then (acc.1 + 1, acc.2.1, acc.2.2)
    else if w = "Hand B" then (acc.1, acc.2.1 + 1, acc.2.2)
    else if w = "Tie" then (acc.1, acc.2.1, acc.2.2 + 1)
    else acc
  | none => acc

/-- `monte_carlo_simulation(player_hand, num_simulations)`.  `rngs i` is the
random stream of trial `i`; `oss i` the two hash-map order bundles its
`verify` call consumes. -/
def monte_carlo_simulation (player : Card × Card) (num_simulations : Nat)
    (rngs : Nat → Nat → Nat) (oss : Nat → Orders × Orders) : SimulationResults :=
  let tally := (List.range num_simulations).foldl (mcStep player rngs oss)
    ((0, 0, 0) : Nat × Nat × Nat)
  SimulationResults.new num_simulations tally.1 tally.2.1 tally.2.2

/-- Rank labels of the `Display` impl. -/
def rankLabel : Rank → String
  | .Ace => "A" | .Two => "2" | .Three => "3" | .Four => "4" | .Five => "5"
  | .Six => "6" | .Seven => "7" | .Eight => "8" | .Nine => "9" | .Ten => "10"
  | .Jack => "J" | .Queen => "Q" | .King => "K"

/-- `describe_hand`. -/
def describe_hand (hand : Card × Card) : String :=
  if hand.1.rank = hand.2.rank then
    rankLabel hand.1.rank ++ rankLabel hand.1.rank ++ "(pair)"
  else if hand.1.suit = hand.2.suit then
    let hl := if hand.2.rank.value < hand.1.rank.value then
        (hand.1.rank, hand.2.rank) else (hand.2.rank, hand.1.rank)
    rankLabel hl.1 ++ rankLabel hl.2 ++ "s"
  else
    let hl := if hand.2.rank.value < hand.1.rank.value then
        (hand.1.rank, hand.2.rank) else (hand.2.rank, hand.1.rank)
    rankLabel hl.1 ++ rankLabel hl.2 ++ "o"

/-- `generate_all_starting_hands`: all index pairs `i < j` over the 52 cards. -/
def generate_all_starting_hands : List (Card × Card) :=
  (List.range fullDeckCards.length).flatMap fun i =>
    (List.range' (i + 1) (fullDeckCards.length - (i + 1))).map fun j =>
      (fullDeckCards.getD i defaultCard, fullDeckCards.getD j defaultCard)

structure HandResult where
  hand : Card × Card
  hand_description : String
  results : SimulationResults

/-- `HandResult::new`. -/
def HandResult.new (hand : Card × Card) (results : SimulationResults) : HandResult :=
  ⟨hand, describe_hand hand, results⟩

/-- The descending-win-rate comparator of the final `sort_by` in
`bulk_monte_carlo_simulation`. -/
def winRateGE (a b : HandResult) : Prop := b.results.win_rate ≤ a.results.win_rate

instance : DecidableRel winRateGE :=
  fun a b => inferInstanceAs (Decidable (b.results.win_rate ≤ a.results.win_rate))

instance : IsTotal HandResult winRateGE :=
  ⟨fun a b => le_total b.results.win_rate a.results.win_rate⟩

instance : IsTrans HandResult winRateGE :=
  ⟨fun _ _ _ h h' => le_trans h' h⟩

/-- `bulk_monte_carlo_simulation(simulations_per_hand)`: run the driver for
every starting hand, then sort by win rate, highest first.  `rngs i` / `oss i`
are the random streams consumed by hand number `i`. -/
def bulk_monte_carlo_simulation (simulations_per_hand : Nat)
    (rngs : Nat → Nat → Nat → Nat) (oss : Nat → Nat → Orders × Orders) :
    List HandResult :=
  let results := generate_all_starting_hands.enum.map fun p =>
    HandResult.new p.2 (monte_carlo_simulation p.2 simulations_per_hand (rngs p.1) (oss p.1))
  List.insertionSort winRateGE results

/-!
### Concrete inputs exercising the full-house trips/pair selection

Seven cards holding two ranks with three-of-a-kind each (Aces and Twos plus
a King).  The rank-count map key set is {Ace, Two, King}; `osLow` and
`osHigh` are two of its possible iteration orders.
-/

def fhHole : Card × Card := (⟨.Ace, .Spades⟩, ⟨.Ace, .Hearts⟩)

def fhComm : List Card :=
  [⟨.Ace, .Diamonds⟩, ⟨.Two, .Spades⟩, ⟨.Two, .Hearts⟩, ⟨.Two, .Diamonds⟩, ⟨.King, .Clubs⟩]

def fhCards : List Card := fhHole.1 :: fhHole.2 :: fhComm

def osLow : Orders :=
  ⟨[.Two, .Ace, .King], [.Two, .Ace, .King], [.Two, .Ace, .King],
   [.Two, .Ace, .King], [.Two, .Ace, .King]⟩

def osHigh : Orders :=
  ⟨[.Ace, .King, .Two], [.Ace, .King, .Two], [.Ace, .King, .Two],
   [.Ace, .King, .Two], [.Ace, .King, .Two]⟩

/-!
### Inputs with no kicker-eligible card (claim C10)
-/

def quadHole : Card × Card := (⟨.Ace, .Spades⟩, ⟨.Ace, .Hearts⟩)

def quadComm : List Card := [⟨.Ace, .Diamonds⟩, ⟨.Ace, .Clubs⟩]

def tpHole : Card × Card := (⟨.King, .Spades⟩, ⟨.King, .Hearts⟩)

def tpComm : List Card := [⟨.Queen, .Spades⟩, ⟨.Queen, .Hearts⟩]

/-- Modelled from the spec: "5 distinct ranks form a run of consecutive
integer values" whose top value is `v` — every value `v, v-1, …, v-4` is
present among the ranks. -/
def specRunAt (ranks : List Rank) (v : Nat) : Bool :=
  (List.range 5).all fun k => ranks.any fun r => decide (r.value = v - k)

/-- Modelled from the spec: some five consecutive rank values are present
(the top of a run lies between 6 and 14). -/
def specHasRun (ranks : List Rank) : Bool :=
  (List.range 15).any fun v => decide (6 ≤ v) && specRunAt ranks v

/-- Modelled from the spec: the wheel A-2-3-4-5 is present. -/
def specWheel (ranks : List Rank) : Bool :=
  decide (Rank.Ace ∈ ranks) && decide (Rank.Two ∈ ranks) && decide (Rank.Three ∈ ranks) &&
  decide (Rank.Four ∈ ranks) && decide (Rank.Five ∈ ranks)

/-- The spec's deck invariant: both piles are sets (no duplicates) and no
card sits in both simultaneously. -/
def DeckInv (d : Deck) : Prop :=
  d.cards.Nodup ∧ d.used_cards.Nodup ∧ ∀ c, c ∈ d.cards → c ∉ d.used_cards

instance (d : Deck) : Decidable (DeckInv d) := by
  unfold DeckInv
  infer_instance

/-- Position of a rank within the per-suit block of the generated deck
(the loop order 1=Ace, 2..10, 11=Jack, 12=Queen, 13=King, zero-based). -/
def rankCode : Rank → Nat
  | .Ace => 0 | .Two => 1 | .Three => 2 | .Four => 3 | .Five => 4 | .Six => 5
  | .Seven => 6 | .Eight => 7 | .Nine => 8 | .Ten => 9 | .Jack => 10
  | .Queen => 11 | .King => 12

/-- Position of a suit block in the generated deck (loop order). -/
def suitCode : Suit → Nat
  | .Spades => 0 | .Hearts => 1 | .Diamonds => 2 | .Clubs => 3

/-- Index of a card in `fullDeckCards`. -/
def cardCode (c : Card) : Nat := suitCode c.suit * 13 + rankCode c.rank

/-- Lexicographic code of an ordered starting-hand pair. -/
def pairCode (p : Card × Card) : Nat := 52 * cardCode p.1 + cardCode p.2

/-- Equality of starting hands as unordered pairs. -/
def unorderedEq (p q : Card × Card) : Prop :=
  (p.1 = q.1 ∧ p.2 = q.2) ∨ (p.1 = q.2 ∧ p.2 = q.1)

instance : IsAntisymm Rank rankGE := ⟨by decide⟩

/-- Hole cards {A♠,2♠} of the spec's known wheel scenario. -/
def wheelHole : Card × Card := (⟨.Ace, .Spades⟩, ⟨.Two, .Spades⟩)

/-- Community cards {3♠,4♠,5♥,9♦,K♣} of the spec's known wheel scenario. -/
def wheelComm : List Card :=
  [⟨.Three, .Spades⟩, ⟨.Four, .Spades⟩, ⟨.Five, .Hearts⟩, ⟨.Nine, .Diamonds⟩, ⟨.King, .Clubs⟩]

/-!
### Generic facts about the count-based checks

These hold for an arbitrary map iteration order, which is how the proofs
below stay independent of the unspecified `HashMap` sequence.
-/

theorem check_four_of_a_kind_none {cards : List Card} (o : List Rank)
    (h : ∀ r : Rank, count_ranks cards r < 4) : check_four_of_a_kind o cards = none := by
  unfold check_four_of_a_kind
  simp only [Option.map_eq_none', List.find?_eq_none]
  intro x _
  simp [Nat.not_le.2 (h x)]

theorem fullHouseScan_trips_none {cards : List Card}
    (h : ∀ r : Rank, count_ranks cards r < 3) :
    ∀ (o : List Rank) (p : Option Rank), (fullHouseScan cards o none p).1 = none := by
  intro o
  induction o with
  | nil => intro p; rfl
  | cons r rest ih =>
    intro p
    unfold fullHouseScan
    rw [if_neg (by simp [Nat.not_le.2 (h r)])]
    split
    · exact ih _
    · exact ih _

theorem check_full_house_none {cards : List Card} (o : List Rank)
    (h : ∀ r : Rank, count_ranks cards r < 3) : check_full_house o cards = none := by
  unfold check_full_house
  have htn := fullHouseScan_trips_none h o none
  rcases hscan : fullHouseScan cards o none none with ⟨t, p⟩
  rw [hscan] at htn
  simp only at htn
  subst htn
  rcases p <;> rfl

theorem check_three_of_a_kind_none {cards : List Card} (o : List Rank)
    (h : ∀ r : Rank, count_ranks cards r < 3) : check_three_of_a_kind o cards = none := by
  unfold check_three_of_a_kind
  simp only [Option.map_eq_none', List.find?_eq_none]
  intro x _
  simp [Nat.not_le.2 (h x)]

/-- A list permuting a two-element list is one of its two arrangements. -/
theorem perm_pair_cases {α : Type} {a b : α} {l : List α} (h : List.Perm l [a, b]) :
    l = [a, b] ∨ l = [b, a] := by
  have hlen : l.length = 2 := by simpa using h.length_eq
  obtain ⟨x, y, rfl⟩ := List.length_eq_two.mp hlen
  have hx : x ∈ [a, b] := h.mem_iff.mp (by simp)
  rcases List.mem_pair.mp hx with rfl | rfl
  · left
    have : List.Perm [y] [b] := h.cons_inv
    simp [List.perm_singleton.mp this]
  · right
    have hswap : List.Perm [x, y] [x, a] := h.trans (List.Perm.swap x a [])
    have : List.Perm [y] [a] := hswap.cons_inv
    simp [List.perm_singleton.mp this]

/-- C10: on four cards that are all Aces (FourOfAKind with no other card)
and on four cards forming two pairs Kings/Queens (TwoPair with no fifth
card), the kicker lookup finds no card of another rank and falls back to
`unwrap_or(Rank::Two)`: the reported kicker is Two although no Two occurs
anywhere in the input. -/
theorem c10_default_kicker_two :
    (∀ os : Orders, ValidOrders os (quadHole.1 :: quadHole.2 :: quadComm) →
      evaluate_hand os quadHole quadComm = ⟨.FourOfAKind, [.Ace, .Two]⟩) ∧
    (∀ os : Orders, ValidOrders os (tpHole.1 :: tpHole.2 :: tpComm) →
      evaluate_hand os tpHole tpComm = ⟨.TwoPair, [.King, .Queen, .Two]⟩) ∧
    Rank.Two ∉ (quadHole.1 :: quadHole.2 :: quadComm).map Card.rank ∧
    Rank.Two ∉ (tpHole.1 :: tpHole.2 :: tpComm).map Card.rank := by
  refine ⟨?_, ?_, by decide, by decide⟩
  · rintro ⟨o4, ofh, o3, o2, op⟩ ⟨h4, hfh, h3, h2, hp⟩
    have e4 : o4 = [.Ace] := List.perm_singleton.mp h4
    have efh : ofh = [.Ace] := List.perm_singleton.mp hfh
    have e3 : o3 = [.Ace] := List.perm_singleton.mp h3
    have e2 : o2 = [.Ace] := List.perm_singleton.mp h2
    have ep : op = [.Ace] := List.perm_singleton.mp hp
    subst e4 efh e3 e2 ep
    decide
  · intro os hv
    obtain ⟨h4, hfh, h3, h2, hp⟩ := hv
    have h2some : check_two_pair os.o2 (sortCardsDesc (tpHole.1 :: tpHole.2 :: tpComm)) =
        some ⟨.TwoPair, [.King, .Queen, .Two]⟩ := by
      rcases perm_pair_cases h2 with e2 | e2 <;> rw [e2] <;> decide
    show evalSorted _ _ = _
    unfold evalSorted
    rw [show check_royal_flush (sortCardsDesc (tpHole.1 :: tpHole.2 :: tpComm)) = none
          from by decide,
        show check_straight_flush (sortCardsDesc (tpHole.1 :: tpHole.2 :: tpComm)) = none
          from by decide,
        check_four_of_a_kind_none _ (by decide),
        check_full_house_none _ (by decide),
        show check_flush (sortCardsDesc (tpHole.1 :: tpHole.2 :: tpComm)) = none
          from by decide,
        show check_straight (sortCardsDesc (tpHole.1 :: tpHole.2 :: tpComm)) = none
          from by decide,
        check_three_of_a_kind_none _ (by decide), h2some]

/-- Witness for C10 at the concrete iteration order `[Ace]`. -/
theorem c10_default_kicker_two_witness :
    evaluate_hand ⟨[.Ace], [.Ace], [.Ace], [.Ace], [.Ace]⟩ quadHole quadComm
      = ⟨.FourOfAKind, [.Ace, .Two]⟩ :=
  c10_default_kicker_two.1 ⟨[.Ace], [.Ace], [.Ace], [.Ace], [.Ace]⟩ (by decide)

/-!
### Straight detection (claim C2)
-/

theorem rank_value_le_fourteen : ∀ r : Rank, r.value ≤ 14 := by decide

theorem two_le_rank_value : ∀ r : Rank, 2 ≤ r.value := by decide

theorem rank_value_inj : ∀ a b : Rank, a.value = b.value → a = b := by decide

theorem specHasRun_iff {ranks : List Rank} : specHasRun ranks = true ↔
    ∃ v, 6 ≤ v ∧ v < 15 ∧ ∀ k, k < 5 → ∃ r ∈ ranks, r.value = v - k := by
  simp only [specHasRun, specRunAt, List.any_eq_true, List.all_eq_true, List.mem_range,
    Bool.and_eq_true, decide_eq_true_eq]
  constructor
  · rintro ⟨v, hv15, hv6, hrun⟩
    exact ⟨v, hv6, hv15, hrun⟩
  · rintro ⟨v, hv6, hv15, hrun⟩
    exact ⟨v, hv15, hv6, hrun⟩

/-- If the scan of the tail succeeds, so does the scan with one more head. -/
theorem scanRun_cons_isSome {l : List Rank} (x : Rank) (h : (scanRun l).isSome) :
    (scanRun (x :: l)).isSome := by
  match l with
  | [] => simp [scanRun] at h
  | [a] => simp [scanRun] at h
  | [a, b] => simp [scanRun] at h
  | [a, b, c] => simp [scanRun] at h
  | [a, b, c, d] => simp [scanRun] at h
  | a :: b :: c :: d :: e :: rest =>
    rw [scanRun]
    split
    · simp
    · exact h

/-- Soundness of the window scan: a reported high card tops five present
consecutive values, and its value is at least 6. -/
theorem scanRun_sound : ∀ (l : List Rank) (hr : Rank), scanRun l = some hr →
    6 ≤ hr.value ∧ ∀ k, k < 5 → ∃ r ∈ l, r.value = hr.value - k := by
  intro l
  induction l with
  | nil => intro hr hs; simp [scanRun] at hs
  | cons a l ih =>
    intro hr hs
    rcases l with _ | ⟨b, l⟩
    · simp [scanRun] at hs
    rcases l with _ | ⟨c, l⟩
    · simp [scanRun] at hs
    rcases l with _ | ⟨d, l⟩
    · simp [scanRun] at hs
    rcases l with _ | ⟨e, l⟩
    · simp [scanRun] at hs
    rw [scanRun] at hs
    by_cases hcond : a.value = b.value + 1 ∧ b.value = c.value + 1 ∧
        c.value = d.value + 1 ∧ d.value = e.value + 1
    · rw [if_pos hcond] at hs
      obtain rfl : a = hr := by simpa using hs
      obtain ⟨h1, h2, h3, h4⟩ := hcond
      have he2 := two_le_rank_value e
      refine ⟨by omega, ?_⟩
      intro k hk
      interval_cases k
      · exact ⟨a, by simp, by omega⟩
      · exact ⟨b, by simp, by omega⟩
      · exact ⟨c, by simp, by omega⟩
      · exact ⟨d, by simp, by omega⟩
      · exact ⟨e, by simp, by omega⟩
    · rw [if_neg hcond] at hs
      obtain ⟨h6, hrun⟩ := ih hr hs
      refine ⟨h6, fun k hk => ?_⟩
      obtain ⟨r, hrmem, hrv⟩ := hrun k hk
      exact ⟨r, List.mem_cons_of_mem a hrmem, hrv⟩

/-- In a strictly descending rank list bounded by `w`, an element of value
`w` must be the head. -/
theorem sorted_head_eq {w : Nat} : ∀ {l : List Rank},
    List.Pairwise (fun a b => b.value < a.value) l →
    (∀ r ∈ l, r.value ≤ w) → (∃ r ∈ l, r.value = w) →
    ∃ b l2, l = b :: l2 ∧ b.value = w ∧
      List.Pairwise (fun a b => b.value < a.value) l2 ∧ ∀ r ∈ l2, r.value < w := by
  intro l hpw hub hex
  rcases l with _ | ⟨b, l2⟩
  · obtain ⟨r, hr, _⟩ := hex
    simp at hr
  · have h1 := List.pairwise_cons.mp hpw
    refine ⟨b, l2, rfl, ?_, h1.2, ?_⟩
    · obtain ⟨r, hr, hrv⟩ := hex
      rcases List.mem_cons.mp hr with rfl | hr'
      · exact hrv
      · have hlt := h1.1 r hr'
        have hble := hub b (by simp)
        omega
    · intro r hr
      have hrb := h1.1 r hr
      have hbw : b.value ≤ w := hub b (by simp)
      omega

/-- Completeness of the window scan: on a strictly descending list holding
five consecutive values topped by `v ≥ 6`, the scan succeeds. -/
theorem scanRun_complete : ∀ (l : List Rank) (v : Nat),
    List.Pairwise (fun a b => b.value < a.value) l → 6 ≤ v →
    (∀ k, k < 5 → ∃ r ∈ l, r.value = v - k) → (scanRun l).isSome := by
  intro l
  induction l with
  | nil =>
    intro v _ _ hmem
    obtain ⟨r, hr, _⟩ := hmem 0 (by omega)
    simp at hr
  | cons a l ih =>
    intro v hpw hv hmem
    have h1 := List.pairwise_cons.mp hpw
    rcases Nat.lt_trichotomy a.value v with hlt | heq | hgt
    · obtain ⟨r, hr, hrv⟩ := hmem 0 (by omega)
      simp only [Nat.sub_zero] at hrv
      rcases List.mem_cons.mp hr with rfl | hr'
      · omega
      · have := h1.1 r hr'
        omega
    · have hubl : ∀ r ∈ l, r.value ≤ v - 1 := fun r hr => by
        have := h1.1 r hr; omega
      have hex1 : ∃ r ∈ l, r.value = v - 1 := by
        obtain ⟨r, hr, hrv⟩ := hmem 1 (by omega)
        rcases List.mem_cons.mp hr with rfl | hr'
        · omega
        · exact ⟨r, hr', hrv⟩
      obtain ⟨b, l2, rfl, hbv, hpw2, hub2⟩ := sorted_head_eq h1.2 hubl hex1
      have hub2' : ∀ r ∈ l2, r.value ≤ v - 2 := fun r hr => by
        have := hub2 r hr; omega
      have hex2 : ∃ r ∈ l2, r.value = v - 2 := by
        obtain ⟨r, hr, hrv⟩ := hmem 2 (by omega)
        rcases List.mem_cons.mp hr with rfl | hr1
        · omega
        rcases List.mem_cons.mp hr1 with rfl | hr2
        · omega
        · exact ⟨r, hr2, hrv⟩
      obtain ⟨c, l3, rfl, hcv, hpw3, hub3⟩ := sorted_head_eq hpw2 hub2' hex2
      have hub3' : ∀ r ∈ l3, r.value ≤ v - 3 := fun r hr => by
        have := hub3 r hr; omega
      have hex3 : ∃ r ∈ l3, r.value = v - 3 := by
        obtain ⟨r, hr, hrv⟩ := hmem 3 (by omega)
        rcases List.mem_cons.mp hr with rfl | hr1
        · omega
        rcases List.mem_cons.mp hr1 with rfl | hr2
        · omega
        rcases List.mem_cons.mp hr2 with rfl | hr3
        · omega
        · exact ⟨r, hr3, hrv⟩
      obtain ⟨d, l4, rfl, hdv, hpw4, hub4⟩ := sorted_head_eq hpw3 hub3' hex3
      have hub4' : ∀ r ∈ l4, r.value ≤ v - 4 := fun r hr => by
        have := hub4 r hr; omega
      have hex4 : ∃ r ∈ l4, r.value = v - 4 := by
        obtain ⟨r, hr, hrv⟩ := hmem 4 (by omega)
        rcases List.mem_cons.mp hr with rfl | hr1
        · omega
        rcases List.mem_cons.mp hr1 with rfl | hr2
        · omega
        rcases List.mem_cons.mp hr2 with rfl | hr3
        · omega
        rcases List.mem_cons.mp hr3 with rfl | hr4
        · omega
        · exact ⟨r, hr4, hrv⟩
      obtain ⟨e, l5, rfl, hev, hpw5, hub5⟩ := sorted_head_eq hpw4 hub4' hex4
      rw [scanRun, if_pos (by omega)]
      simp
    · have hmem' : ∀ k, k < 5 → ∃ r ∈ l, r.value = v - k := by
        intro k hk
        obtain ⟨r, hr, hrv⟩ := hmem k hk
        rcases List.mem_cons.mp hr with rfl | hr'
        · omega
        · exact ⟨r, hr', hrv⟩
      exact scanRun_cons_isSome a (ih v h1.2 hv hmem')

theorem mem_sortRanksDesc_dedup {ranks : List Rank} {r : Rank} :
    r ∈ sortRanksDesc ranks.dedup ↔ r ∈ ranks := by
  unfold sortRanksDesc
  rw [List.Perm.mem_iff (List.perm_insertionSort _ _)]
  exact List.mem_dedup

theorem pairwise_sortRanksDesc_dedup (ranks : List Rank) :
    List.Pairwise (fun a b => b.value < a.value) (sortRanksDesc ranks.dedup) := by
  have hs : List.Sorted rankGE (sortRanksDesc ranks.dedup) :=
    List.sorted_insertionSort _ _
  have hn : (sortRanksDesc ranks.dedup).Nodup :=
    ((List.perm_insertionSort _ _).nodup_iff).mpr (List.nodup_dedup ranks)
  refine (hs.and hn).imp ?_
  rintro a b ⟨hge, hne⟩
  exact Nat.lt_of_le_of_ne hge fun hv => hne (rank_value_inj b a hv).symm

/-!
### Deck invariants (claims C7 and C8)
-/

/-- Appending a fresh element to a duplicate-free list keeps it
duplicate-free. -/
theorem nodup_append_singleton {α : Type} {l : List α} {a : α}
    (h : l.Nodup) (ha : a ∉ l) : (l ++ [a]).Nodup := by
  simp [List.nodup_append, h, ha]

/-- The card at an in-bounds position is in the list and is gone after
erasing that position (in a duplicate-free list). -/
theorem getD_pick_facts {l : List Card} {pos : Nat} (hl : l.Nodup) (hlt : pos < l.length) :
    l.getD pos defaultCard ∈ l ∧ l.getD pos defaultCard ∉ l.eraseIdx pos := by
  have hg := List.getD_eq_getElem l defaultCard hlt
  constructor
  · rw [hg]
    exact List.getElem_mem hlt
  · rw [hg, ← List.Nodup.erase_getElem hl _ hlt]
    exact hl.not_mem_erase

/-- What a successful `draw` did: picked the card at the reduced random
index, erased it from the available pile and appended it to the used pile. -/
theorem draw_spec {d : Deck} {i : Nat} {c : Card} {d' : Deck}
    (h : d.draw i = some (c, d')) :
    i % d.cards.length < d.cards.length ∧
    c = d.cards.getD (i % d.cards.length) defaultCard ∧
    d'.cards = d.cards.eraseIdx (i % d.cards.length) ∧
    d'.used_cards = d.used_cards ++ [c] := by
  unfold Deck.draw at h
  by_cases hemp : d.cards.isEmpty
  · rw [if_pos hemp] at h
    cases h
  · rw [if_neg hemp] at h
    have hne : d.cards ≠ [] := by simpa [List.isEmpty_iff] using hemp
    have hlt : i % d.cards.length < d.cards.length :=
      Nat.mod_lt _ (List.length_pos.mpr hne)
    simp only [Option.some.injEq, Prod.mk.injEq] at h
    obtain ⟨hc, hd⟩ := h
    subst hd
    exact ⟨hlt, hc.symm, rfl, by rw [hc]⟩

theorem draw_eq_none_iff {d : Deck} {i : Nat} : d.draw i = none ↔ d.cards = [] := by
  unfold Deck.draw
  by_cases hemp : d.cards.isEmpty
  · rw [if_pos hemp]
    simpa [List.isEmpty_iff] using hemp
  · rw [if_neg hemp]
    simp only [List.isEmpty_iff] at hemp
    simp [hemp]

/-- C7: `new` establishes and `draw`, `remove_card`, `add` preserve the
invariant that the two piles are duplicate-free and disjoint, and `add`
rejects with an error any card already present in either pile. -/
theorem c7_deck_invariant_preserved :
    DeckInv Deck.new ∧
    (∀ (d : Deck) (i : Nat) (c : Card) (d' : Deck),
      DeckInv d → d.draw i = some (c, d') → DeckInv d') ∧
    (∀ (d : Deck) (c : Card) (d' : Deck),
      DeckInv d → d.remove_card c = .ok d' → DeckInv d') ∧
    (∀ (d : Deck) (c : Card) (d' : Deck),
      DeckInv d → d.add c = .ok d' → DeckInv d') ∧
    (∀ (d : Deck) (c : Card), c ∈ d.cards ∨ c ∈ d.used_cards →
      ∃ msg, d.add c = .error msg) := by
  refine ⟨by decide, ?_, ?_, ?_, ?_⟩
  · rintro d i c d' ⟨hnc, hnu, hdisj⟩ h
    obtain ⟨hlt, hc, hcards, hused⟩ := draw_spec h
    obtain ⟨hcmem, hcnot⟩ := getD_pick_facts hnc hlt
    rw [← hc] at hcmem hcnot
    refine ⟨?_, ?_, ?_⟩
    · rw [hcards]
      exact hnc.sublist (List.eraseIdx_sublist _ _)
    · rw [hused]
      exact nodup_append_singleton hnu (hdisj c hcmem)
    · intro x hx
      rw [hused]
      rw [hcards] at hx
      have hxd : x ∈ d.cards := List.eraseIdx_subset _ _ hx
      simp only [List.mem_append, List.mem_singleton]
      rintro (hxu | rfl)
      · exact hdisj x hxd hxu
      · exact hcnot hx
  · rintro d c d' ⟨hnc, hnu, hdisj⟩ h
    unfold Deck.remove_card at h
    rcases hf : d.cards.findIdx? fun x => decide (x = c) with _ | pos
    · rw [hf] at h
      cases h
    · rw [hf] at h
      obtain ⟨hlt, _, _⟩ := List.findIdx?_eq_some_iff_getElem.mp hf
      simp only [Except.ok.injEq] at h
      subst h
      obtain ⟨hcmem, hcnot⟩ := getD_pick_facts hnc hlt
      refine ⟨hnc.sublist (List.eraseIdx_sublist _ _), ?_, ?_⟩
      · exact nodup_append_singleton hnu (hdisj _ hcmem)
      · intro x hx
        have hxd : x ∈ d.cards := List.eraseIdx_subset _ _ hx
        simp only [List.mem_append, List.mem_singleton]
        rintro (hxu | rfl)
        · exact hdisj x hxd hxu
        · exact hcnot hx
  · rintro d c d' ⟨hnc, hnu, hdisj⟩ h
    unfold Deck.add at h
    by_cases hu : c ∈ d.used_cards
    · rw [if_pos hu] at h
      cases h
    · rw [if_neg hu] at h
      by_cases hcm : c ∈ d.cards
      · rw [if_pos hcm] at h
        cases h
      · rw [if_neg hcm] at h
        have hfind : (d.used_cards.findIdx? fun x => decide (x = c)) = none := by
          rw [List.findIdx?_eq_none_iff]
          intro x hx
          simp only [decide_eq_false_iff_not]
          rintro rfl
          exact hu hx
        rw [hfind] at h
        simp only [Except.ok.injEq] at h
        subst h
        refine ⟨nodup_append_singleton hnc hcm, hnu, ?_⟩
        intro x hx
        simp only [List.mem_append, List.mem_singleton] at hx
        rcases hx with hx | rfl
        · exact hdisj x hx
        · exact hu
  · intro d c hmem
    by_cases hu : c ∈ d.used_cards
    · exact ⟨_, by unfold Deck.add; rw [if_pos hu]⟩
    · have hcm : c ∈ d.cards := by tauto
      exact ⟨_, by unfold Deck.add; rw [if_neg hu, if_pos hcm]⟩

/-- Witness for C7 at a small concrete deck: drawing from
`⟨[2♠, 3♠], [4♠]⟩` at raw index 0 yields `⟨[3♠], [4♠, 2♠]⟩`, which still
satisfies the invariant. -/
theorem c7_deck_invariant_preserved_witness :
    DeckInv ⟨[⟨.Three, .Spades⟩], [⟨.Four, .Spades⟩, ⟨.Two, .Spades⟩]⟩ :=
  c7_deck_invariant_preserved.2.1
    ⟨[⟨.Two, .Spades⟩, ⟨.Three, .Spades⟩], [⟨.Four, .Spades⟩]⟩ 0 ⟨.Two, .Spades⟩
    ⟨[⟨.Three, .Spades⟩], [⟨.Four, .Spades⟩, ⟨.Two, .Spades⟩]⟩ (by decide) (by decide)

/-- Induction backbone for C8 and C4: `k` draws from a duplicate-free pile
of at least `k` cards all succeed, produce `k` distinct cards taken from the
pile, and leave a pile of `length - k` cards that lost exactly the drawn ones. -/
theorem drawSeq_spec : ∀ (k t : Nat) (d : Deck) (rng : Nat → Nat),
    d.cards.Nodup → k ≤ d.cards.length →
    (drawSeq rng t k d).1.length = k ∧
    (drawSeq rng t k d).1.Nodup ∧
    (∀ x ∈ (drawSeq rng t k d).1, x ∈ d.cards) ∧
    (∀ x ∈ (drawSeq rng t k d).1, x ∉ (drawSeq rng t k d).2.cards) ∧
    (drawSeq rng t k d).2.cards.length = d.cards.length - k ∧
    (drawSeq rng t k d).2.cards.Nodup ∧
    (∀ x ∈ (drawSeq rng t k d).2.cards, x ∈ d.cards) := by
  intro k
  induction k with
  | zero =>
    intro t d rng hnd _
    simp [drawSeq, hnd]
  | succ k ih =>
    intro t d rng hnd hk
    have hne : d.cards ≠ [] := by
      intro hcon
      rw [hcon] at hk
      simp at hk
    rcases hdr : d.draw (rng t) with _ | ⟨c, d2⟩
    · exact absurd (draw_eq_none_iff.mp hdr) hne
    obtain ⟨hlt, hc, hcards2, _⟩ := draw_spec hdr
    obtain ⟨hcmem, hcnot⟩ := getD_pick_facts hnd hlt
    rw [← hc] at hcmem hcnot
    have hcnot2 : c ∉ d2.cards := by
      rw [hcards2]
      exact hcnot
    have hnd2 : d2.cards.Nodup := by
      rw [hcards2]
      exact hnd.sublist (List.eraseIdx_sublist _ _)
    have hlen2 : d2.cards.length = d.cards.length - 1 := by
      rw [hcards2]
      exact List.length_eraseIdx_of_lt hlt
    have hsub2 : ∀ x ∈ d2.cards, x ∈ d.cards := by
      intro x hx
      rw [hcards2] at hx
      exact List.eraseIdx_subset _ _ hx
    have hk2 : k ≤ d2.cards.length := by omega
    obtain ⟨ih1, ih2, ih3, ih4, ih5, ih6, ih7⟩ := ih (t + 1) d2 rng hnd2 hk2
    have hunf : drawSeq rng t (k + 1) d =
        (c :: (drawSeq rng (t + 1) k d2).1, (drawSeq rng (t + 1) k d2).2) := by
      rw [drawSeq, hdr]
    rw [hunf]
    refine ⟨by simp [ih1], ?_, ?_, ?_, by simp [ih5]; omega, ih6,
      fun x hx => hsub2 x (ih7 x hx)⟩
    · simp only [List.nodup_cons]
      exact ⟨fun hmem => hcnot2 (ih3 c hmem), ih2⟩
    · intro x hx
      rcases List.mem_cons.mp hx with rfl | hx2
      · exact hcmem
      · exact hsub2 x (ih3 x hx2)
    · intro x hx
      rcases List.mem_cons.mp hx with rfl | hx2
      · intro hmem
        exact hcnot2 (ih7 x hmem)
      · exact ih4 x hx2

/-- C8: a fresh deck has 52 available and 0 used cards; 52 successive draws
(under any random stream) all succeed and return pairwise distinct cards,
and the following draw reports exhaustion. -/
theorem c8_fresh_deck_draws :
    Deck.new.cards.length = 52 ∧ Deck.new.used_cards = [] ∧
    ∀ rng : Nat → Nat,
      (drawSeq rng 0 52 Deck.new).1.length = 52 ∧
      (drawSeq rng 0 52 Deck.new).1.Nodup ∧
      ∀ i : Nat, (drawSeq rng 0 52 Deck.new).2.draw i = none := by
  refine ⟨by decide, rfl, ?_⟩
  intro rng
  have hnd : Deck.new.cards.Nodup := by decide
  have hlen : Deck.new.cards.length = 52 := by decide
  obtain ⟨h1, h2, _, _, h5, _, _⟩ :=
    drawSeq_spec 52 0 Deck.new rng hnd (by rw [hlen])
  refine ⟨h1, h2, fun i => ?_⟩
  rw [draw_eq_none_iff, ← List.length_eq_zero, h5, hlen]

/-!
### Bulk sweep (claim C9)
-/

set_option maxRecDepth 2048 in
theorem cardCode_getD : ∀ i, i < 52 → cardCode (fullDeckCards.getD i defaultCard) = i := by
  decide

theorem cardCode_inj : ∀ c c' : Card, cardCode c = cardCode c' → c = c' := by decide

theorem cardCode_lt : ∀ c : Card, cardCode c < 52 := by decide

set_option maxRecDepth 2048 in
theorem getD_cardCode : ∀ c : Card, fullDeckCards.getD (cardCode c) defaultCard = c := by
  decide

/-- The sweep's entries are exactly the index pairs `i < j` of the deck. -/
theorem mem_hands_iff {p : Card × Card} :
    p ∈ generate_all_starting_hands ↔
    ∃ i j, i < j ∧ j < 52 ∧
      p = (fullDeckCards.getD i defaultCard, fullDeckCards.getD j defaultCard) := by
  have hlen : fullDeckCards.length = 52 := by decide
  unfold generate_all_starting_hands
  simp only [hlen, List.mem_flatMap, List.mem_map, List.mem_range, List.mem_range']
  constructor
  · rintro ⟨i, hi, j, ⟨k, hk, rfl⟩, rfl⟩
    exact ⟨i, i + 1 + 1 * k, by omega, by omega, rfl⟩
  · rintro ⟨i, j, hij, hj, rfl⟩
    exact ⟨i, by omega, j, ⟨j - (i + 1), by omega, by omega⟩, rfl⟩

theorem hands_ordered : ∀ p ∈ generate_all_starting_hands, cardCode p.1 < cardCode p.2 := by
  intro p hp
  obtain ⟨i, j, hij, hj, rfl⟩ := mem_hands_iff.mp hp
  simp only
  rw [cardCode_getD i (by omega), cardCode_getD j hj]
  exact hij

set_option maxRecDepth 2048 in
theorem hands_length : generate_all_starting_hands.length = 1326 := by
  have hlen : fullDeckCards.length = 52 := by decide
  unfold generate_all_starting_hands
  simp only [hlen, List.flatMap, List.length_flatten, List.map_map, Function.comp,
    List.length_map, List.length_range']
  decide

/-- The sweep's ordered-pair codes strictly increase along the list. -/
theorem hands_pairwise_codes :
    List.Pairwise (fun p q => pairCode p < pairCode q) generate_all_starting_hands := by
  have hlen : fullDeckCards.length = 52 := by decide
  unfold generate_all_starting_hands
  simp only [hlen]
  rw [List.pairwise_flatMap]
  constructor
  · intro i hi
    rw [List.pairwise_map]
    refine List.Pairwise.imp_of_mem ?_ (List.pairwise_lt_range' (i + 1) (52 - (i + 1)))
    intro j j' hjm hjm' hlt
    have hj52 : j' < 52 := by
      rw [List.mem_range'] at hjm'
      obtain ⟨k, hk, rfl⟩ := hjm'
      omega
    have hj1 : j < 52 := by omega
    simp only [pairCode]
    rw [cardCode_getD j hj1, cardCode_getD j' hj52]
    omega
  · refine List.Pairwise.imp_of_mem ?_ (List.pairwise_lt_range 52)
    intro i i' him him' hlt x hx y hy
    rw [List.mem_range] at him him'
    obtain ⟨j, hjm, rfl⟩ := List.mem_map.mp hx
    obtain ⟨j', hjm', rfl⟩ := List.mem_map.mp hy
    rw [List.mem_range'] at hjm hjm'
    obtain ⟨k, hk, rfl⟩ := hjm
    obtain ⟨k', hk', rfl⟩ := hjm'
    simp only [pairCode]
    rw [cardCode_getD i him, cardCode_getD i' him',
      cardCode_getD _ (show i + 1 + 1 * k < 52 by omega),
      cardCode_getD _ (show i' + 1 + 1 * k' < 52 by omega)]
    omega

/-- Each index pair `i < j < 52` contributes its card pair to the sweep. -/
theorem pair_mem_hands {i j : Nat} (hij : i < j) (hj : j < 52) :
    (fullDeckCards.getD i defaultCard, fullDeckCards.getD j defaultCard) ∈
      generate_all_starting_hands := by
  have hlen : fullDeckCards.length = 52 := by decide
  unfold generate_all_starting_hands
  simp only [hlen]
  refine List.mem_flatMap.mpr ⟨i, List.mem_range.mpr (by omega), ?_⟩
  refine List.mem_map.mpr ⟨j, ?_, rfl⟩
  rw [List.mem_range']
  exact ⟨j - (i + 1), by omega, by omega⟩

/-- Every unordered pair of distinct cards occurs in the sweep. -/
theorem hands_complete : ∀ c₁ c₂ : Card, c₁ ≠ c₂ →
    ∃ p ∈ generate_all_starting_hands, unorderedEq p (c₁, c₂) := by
  intro c₁ c₂ hne
  rcases Nat.lt_trichotomy (cardCode c₁) (cardCode c₂) with hlt | heq | hgt
  · refine ⟨(fullDeckCards.getD (cardCode c₁) defaultCard,
      fullDeckCards.getD (cardCode c₂) defaultCard),
      pair_mem_hands hlt (cardCode_lt c₂), Or.inl ?_⟩
    exact ⟨getD_cardCode c₁, getD_cardCode c₂⟩
  · exact absurd (cardCode_inj c₁ c₂ heq) hne
  · refine ⟨(fullDeckCards.getD (cardCode c₂) defaultCard,
      fullDeckCards.getD (cardCode c₁) defaultCard),
      pair_mem_hands hgt (cardCode_lt c₁), Or.inr ?_⟩
    exact ⟨getD_cardCode c₂, getD_cardCode c₁⟩

/-- No two entries of the sweep agree as unordered pairs. -/
theorem hands_pairwise_distinct :
    List.Pairwise (fun p q => ¬ unorderedEq p q) generate_all_starting_hands := by
  refine List.Pairwise.imp_of_mem ?_ hands_pairwise_codes
  intro p q hp hq hcode huneq
  have hpo := hands_ordered p hp
  have hqo := hands_ordered q hq
  simp only [pairCode] at hcode
  rcases huneq with ⟨h1, h2⟩ | ⟨h1, h2⟩
  · rw [h1, h2] at hcode
    omega
  · rw [h1, h2] at hcode hpo
    omega

/-- C9: the sweep enumerates exactly the 1326 unordered pairs of distinct
cards — no self-pair, no duplicate pair, every pair present — and the bulk
result list has one entry per pair and is sorted by non-increasing win rate. -/
theorem c9_bulk_sweep (simulations_per_hand : Nat) (rngs : Nat → Nat → Nat → Nat)
    (oss : Nat → Nat → Orders × Orders) :
    generate_all_starting_hands.length = 1326 ∧
    (∀ p ∈ generate_all_starting_hands, p.1 ≠ p.2) ∧
    List.Pairwise (fun p q => ¬ unorderedEq p q) generate_all_starting_hands ∧
    (∀ c₁ c₂ : Card, c₁ ≠ c₂ →
      ∃ p ∈ generate_all_starting_hands, unorderedEq p (c₁, c₂)) ∧
    (bulk_monte_carlo_simulation simulations_per_hand rngs oss).length = 1326 ∧
    (∀ hr ∈ bulk_monte_carlo_simulation simulations_per_hand rngs oss,
      hr.hand ∈ generate_all_starting_hands) ∧
    List.Sorted winRateGE (bulk_monte_carlo_simulation simulations_per_hand rngs oss) := by
  refine ⟨hands_length, ?_, hands_pairwise_distinct, hands_complete, ?_, ?_, ?_⟩
  · intro p hp
    have := hands_ordered p hp
    intro hcon
    rw [hcon] at this
    omega
  · unfold bulk_monte_carlo_simulation
    rw [(List.perm_insertionSort winRateGE _).length_eq, List.length_map,
      List.enum_length, hands_length]
  · intro hr hmem
    unfold bulk_monte_carlo_simulation at hmem
    have hmem2 := (List.perm_insertionSort winRateGE _).mem_iff.mp hmem
    obtain ⟨p, hp, rfl⟩ := List.mem_map.mp hmem2
    exact List.snd_mem_of_mem_enumFrom hp
  · exact List.sorted_insertionSort winRateGE _

/-- Witness for C9: the unordered pair {A♠, K♥} occurs in the sweep. -/
theorem c9_bulk_sweep_witness :
    ∃ p ∈ generate_all_starting_hands,
      unorderedEq p (⟨.Ace, .Spades⟩, ⟨.King, .Hearts⟩) :=
  (c9_bulk_sweep 0 (fun _ _ _ => 0)
    (fun _ _ => (⟨[], [], [], [], []⟩, ⟨[], [], [], [], []⟩))).2.2.2.1
    ⟨.Ace, .Spades⟩ ⟨.King, .Hearts⟩ (by decide)

/-!
### Permutation invariance of the evaluator (claim C6)

Every check reads the cards only through multiset-invariant views: rank
counts, per-suit membership and lengths, and descending-sorted rank lists.
-/

theorem any_perm {α : Type} {l₁ l₂ : List α} (h : List.Perm l₁ l₂) (p : α → Bool) :
    l₁.any p = l₂.any p := by
  cases hb : l₂.any p
  · rw [List.any_eq_false] at hb ⊢
    intro x hx
    exact hb x (h.mem_iff.mp hx)
  · rw [List.any_eq_true] at hb ⊢
    obtain ⟨x, hx, hpx⟩ := hb
    exact ⟨x, h.mem_iff.mpr hx, hpx⟩

theorem count_ranks_perm {c₁ c₂ : List Card} (h : List.Perm c₁ c₂) (r : Rank) :
    count_ranks c₁ r = count_ranks c₂ r :=
  (h.filter _).length_eq

/-- Two permuted card lists sort to the same descending rank sequence. -/
theorem sortCards_map_rank_eq {c₁ c₂ : List Card} (h : List.Perm c₁ c₂) :
    (sortCardsDesc c₁).map Card.rank = (sortCardsDesc c₂).map Card.rank := by
  have hperm : List.Perm ((sortCardsDesc c₁).map Card.rank)
      ((sortCardsDesc c₂).map Card.rank) :=
    (((List.perm_insertionSort cardGE c₁).trans h).trans
      (List.perm_insertionSort cardGE c₂).symm).map Card.rank
  have hs1 : List.Sorted rankGE ((sortCardsDesc c₁).map Card.rank) :=
    List.pairwise_map.mpr ((List.sorted_insertionSort cardGE c₁).imp fun hab => hab)
  have hs2 : List.Sorted rankGE ((sortCardsDesc c₂).map Card.rank) :=
    List.pairwise_map.mpr ((List.sorted_insertionSort cardGE c₂).imp fun hab => hab)
  exact List.eq_of_perm_of_sorted hperm hs1 hs2

/-- Permuted rank lists sort identically. -/
theorem sortRanks_perm_eq {l₁ l₂ : List Rank} (h : List.Perm l₁ l₂) :
    sortRanksDesc l₁ = sortRanksDesc l₂ := by
  have hperm : List.Perm (sortRanksDesc l₁) (sortRanksDesc l₂) :=
    ((List.perm_insertionSort rankGE l₁).trans h).trans
      (List.perm_insertionSort rankGE l₂).symm
  exact List.eq_of_perm_of_sorted hperm
    (List.sorted_insertionSort rankGE l₁) (List.sorted_insertionSort rankGE l₂)

/-- A rank-predicate `find?` followed by rank projection only looks at the
rank sequence. -/
theorem find_map_rank (l : List Card) (p : Rank → Bool) :
    (l.find? fun c => p c.rank).map Card.rank = (l.map Card.rank).find? p := by
  rw [List.find?_map]
  rfl

theorem check_royal_flush_perm {c₁ c₂ : List Card} (h : List.Perm c₁ c₂) :
    check_royal_flush c₁ = check_royal_flush c₂ := by
  unfold check_royal_flush
  congr 1
  funext s
  dsimp only
  have hlen := (h.filter fun c => decide (c.suit = s)).length_eq
  have hall : ([Rank.Ace, Rank.King, Rank.Queen, Rank.Jack, Rank.Ten].all fun r =>
      (c₁.filter fun c => decide (c.suit = s)).any fun c => decide (c.rank = r)) =
      ([Rank.Ace, Rank.King, Rank.Queen, Rank.Jack, Rank.Ten].all fun r =>
      (c₂.filter fun c => decide (c.suit = s)).any fun c => decide (c.rank = r)) := by
    congr 1
    funext r
    exact any_perm (h.filter _) _
  exact if_congr (by rw [hlen, hall]) rfl rfl

theorem check_straight_flush_perm {c₁ c₂ : List Card} (h : List.Perm c₁ c₂) :
    check_straight_flush c₁ = check_straight_flush c₂ := by
  unfold check_straight_flush
  congr 1
  funext s
  dsimp only
  rw [sortCards_map_rank_eq (h.filter fun c => decide (c.suit = s))]

theorem check_four_of_a_kind_perm (o : List Rank) {c₁ c₂ : List Card}
    (h : List.Perm c₁ c₂) (hmap : c₁.map Card.rank = c₂.map Card.rank) :
    check_four_of_a_kind o c₁ = check_four_of_a_kind o c₂ := by
  unfold check_four_of_a_kind
  have hfind : (o.find? fun r => decide (4 ≤ count_ranks c₁ r)) =
      o.find? fun r => decide (4 ≤ count_ranks c₂ r) := by
    congr 1
    funext r
    rw [count_ranks_perm h r]
  rw [hfind]
  congr 1
  funext r
  dsimp only
  rw [find_map_rank c₁ fun v => decide (v ≠ r), find_map_rank c₂ fun v => decide (v ≠ r),
    hmap]

theorem fullHouseScan_congr {c₁ c₂ : List Card}
    (hcnt : ∀ r, count_ranks c₁ r = count_ranks c₂ r) :
    ∀ (o : List Rank) (t p : Option Rank),
      fullHouseScan c₁ o t p = fullHouseScan c₂ o t p := by
  intro o
  induction o with
  | nil => intro t p; rfl
  | cons r rest ih =>
    intro t p
    simp only [fullHouseScan, hcnt r]
    split_ifs <;> exact ih _ _

theorem check_full_house_perm (o : List Rank) {c₁ c₂ : List Card}
    (h : List.Perm c₁ c₂) :
    check_full_house o c₁ = check_full_house o c₂ := by
  unfold check_full_house
  rw [fullHouseScan_congr (fun r => count_ranks_perm h r) o none none]

theorem check_flush_perm {c₁ c₂ : List Card} (h : List.Perm c₁ c₂) :
    check_flush c₁ = check_flush c₂ := by
  unfold check_flush
  congr 1
  funext s
  dsimp only
  have hlen := (h.filter fun c => decide (c.suit = s)).length_eq
  rw [hlen, sortCards_map_rank_eq (h.filter fun c => decide (c.suit = s))]

theorem check_straight_perm {c₁ c₂ : List Card}
    (hmap : c₁.map Card.rank = c₂.map Card.rank) :
    check_straight c₁ = check_straight c₂ := by
  unfold check_straight
  rw [hmap]

theorem check_three_of_a_kind_perm (o : List Rank) {c₁ c₂ : List Card}
    (h : List.Perm c₁ c₂) :
    check_three_of_a_kind o c₁ = check_three_of_a_kind o c₂ := by
  unfold check_three_of_a_kind
  have hfind : (o.find? fun r => decide (3 ≤ count_ranks c₁ r)) =
      o.find? fun r => decide (3 ≤ count_ranks c₂ r) := by
    congr 1
    funext r
    rw [count_ranks_perm h r]
  rw [hfind]
  congr 1
  funext r
  dsimp only
  rw [sortRanks_perm_eq ((h.filter fun c => decide (c.rank ≠ r)).map Card.rank)]

theorem check_two_pair_perm (o : List Rank) {c₁ c₂ : List Card}
    (h : List.Perm c₁ c₂) (hmap : c₁.map Card.rank = c₂.map Card.rank) :
    check_two_pair o c₁ = check_two_pair o c₂ := by
  unfold check_two_pair
  have hp : (o.filter fun r => decide (2 ≤ count_ranks c₁ r)) =
      o.filter fun r => decide (2 ≤ count_ranks c₂ r) := by
    congr 1
    funext r
    rw [count_ranks_perm h r]
  rw [hp]
  rcases sortRanksDesc (o.filter fun r => decide (2 ≤ count_ranks c₂ r)) with
    _ | ⟨p0, _ | ⟨p1, rest⟩⟩
  · rfl
  · rfl
  · dsimp only
    rw [find_map_rank c₁ fun v => decide (v ≠ p0 ∧ v ≠ p1),
      find_map_rank c₂ fun v => decide (v ≠ p0 ∧ v ≠ p1), hmap]

theorem check_pair_perm (o : List Rank) {c₁ c₂ : List Card}
    (h : List.Perm c₁ c₂) :
    check_pair o c₁ = check_pair o c₂ := by
  unfold check_pair
  have hfind : (o.find? fun r => decide (2 ≤ count_ranks c₁ r)) =
      o.find? fun r => decide (2 ≤ count_ranks c₂ r) := by
    congr 1
    funext r
    rw [count_ranks_perm h r]
  rw [hfind]
  congr 1
  funext r
  dsimp only
  rw [sortRanks_perm_eq ((h.filter fun c => decide (c.rank ≠ r)).map Card.rank)]

/-- C6: `evaluate_hand` is invariant under any reordering of its seven (or
fewer) input cards, given the same resolution of the rank-count map
iteration orders; moreover a reordering does not change which order
resolutions are valid, so the set of possible outputs is reorder-invariant
as well. -/
theorem c6_evaluate_hand_perm_invariant (os : Orders) (h₁ h₂ : Card × Card)
    (comm₁ comm₂ : List Card)
    (hperm : List.Perm (h₁.1 :: h₁.2 :: comm₁) (h₂.1 :: h₂.2 :: comm₂)) :
    evaluate_hand os h₁ comm₁ = evaluate_hand os h₂ comm₂ ∧
    (ValidOrders os (h₁.1 :: h₁.2 :: comm₁) ↔ ValidOrders os (h₂.1 :: h₂.2 :: comm₂)) := by
  constructor
  · have hs : List.Perm (sortCardsDesc (h₁.1 :: h₁.2 :: comm₁))
        (sortCardsDesc (h₂.1 :: h₂.2 :: comm₂)) :=
      ((List.perm_insertionSort cardGE _).trans hperm).trans
        (List.perm_insertionSort cardGE _).symm
    have hmap := sortCards_map_rank_eq hperm
    unfold evaluate_hand evalSorted
    rw [check_royal_flush_perm hs, check_straight_flush_perm hs,
      check_four_of_a_kind_perm os.o4 hs hmap, check_full_house_perm os.ofh hs,
      check_flush_perm hs, check_straight_perm hmap,
      check_three_of_a_kind_perm os.o3 hs, check_two_pair_perm os.o2 hs hmap,
      check_pair_perm os.op hs, hmap]
  · have hk : List.Perm (rankKeys (h₁.1 :: h₁.2 :: comm₁)) (rankKeys (h₂.1 :: h₂.2 :: comm₂)) :=
      (hperm.map Card.rank).dedup
    unfold ValidOrders
    constructor
    · rintro ⟨a, b, c, d, e⟩
      exact ⟨a.trans hk, b.trans hk, c.trans hk, d.trans hk, e.trans hk⟩
    · rintro ⟨a, b, c, d, e⟩
      exact ⟨a.trans hk.symm, b.trans hk.symm, c.trans hk.symm, d.trans hk.symm,
        e.trans hk.symm⟩

/-!
### Simulation driver totals (claim C4)
-/

theorem mem_fullDeckCards : ∀ c : Card, c ∈ fullDeckCards := by decide

/-- `removeOr` keeps the pile duplicate-free and removes at most one card. -/
theorem removeOr_facts (d : Deck) (c : Card) (hnd : d.cards.Nodup) :
    (removeOr d c).cards.Nodup ∧
    ((removeOr d c).cards.length = d.cards.length ∨
      (removeOr d c).cards.length + 1 = d.cards.length) := by
  unfold removeOr Deck.remove_card
  rcases hf : d.cards.findIdx? fun x => decide (x = c) with _ | pos
  · exact ⟨hnd, Or.inl rfl⟩
  · obtain ⟨hlt, _, _⟩ := List.findIdx?_eq_some_iff_getElem.mp hf
    constructor
    · exact hnd.sublist (List.eraseIdx_sublist _ _)
    · right
      simp only
      rw [List.length_eraseIdx_of_lt hlt]
      omega

theorem draw_isSome_of_ne_nil {d : Deck} (i : Nat) (h : d.cards ≠ []) :
    ∃ c d', d.draw i = some (c, d') := by
  unfold Deck.draw
  rw [if_neg (by simpa [List.isEmpty_iff] using h)]
  exact ⟨_, _, rfl⟩

/-- The comparator's winner is always one of the three expected strings. -/
theorem verify_winner_cases (osA osB : Orders) (a b : Card × Card) (community : List Card) :
    (verify osA osB a b community).1 = "Hand A" ∨
    (verify osA osB a b community).1 = "Hand B" ∨
    (verify osA osB a b community).1 = "Tie" := by
  simp only [verify]
  rcases natCompare (evaluate_hand osA a community).rank.toNat
      (evaluate_hand osB b community).rank.toNat <;>
    rcases rankListCompare (evaluate_hand osA a community).high_cards
      (evaluate_hand osB b community).high_cards <;>
    simp

/-- Every trial completes: the deck keeps at least 50 cards after the two
removals, so the 7 draws always succeed and the board is never short. -/
theorem runTrial_isSome (player : Card × Card) (os : Orders × Orders) (rng : Nat → Nat) :
    ∃ w, runTrial player os rng = some w ∧
      (w = "Hand A" ∨ w = "Hand B" ∨ w = "Tie") := by
  have hnew_nd : Deck.new.cards.Nodup := by decide
  have hnew_len : Deck.new.cards.length = 52 := by decide
  obtain ⟨hnd1, hlen1⟩ := removeOr_facts Deck.new player.1 hnew_nd
  obtain ⟨hnd2, hlen2⟩ := removeOr_facts (removeOr Deck.new player.1) player.2 hnd1
  have hlen2' : 50 ≤ (removeOr (removeOr Deck.new player.1) player.2).cards.length := by
    omega
  obtain ⟨o1, d3, hdr1⟩ := draw_isSome_of_ne_nil (rng 0) (d := removeOr (removeOr Deck.new player.1) player.2)
    (by intro hc; rw [hc] at hlen2'; simp at hlen2')
  obtain ⟨hlt1, _, hd3cards, _⟩ := draw_spec hdr1
  have hnd3 : d3.cards.Nodup := by
    rw [hd3cards]
    exact hnd2.sublist (List.eraseIdx_sublist _ _)
  have hlen3 : d3.cards.length + 1 = (removeOr (removeOr Deck.new player.1) player.2).cards.length := by
    rw [hd3cards, List.length_eraseIdx_of_lt hlt1]
    omega
  obtain ⟨o2, d4, hdr2⟩ := draw_isSome_of_ne_nil (rng 1) (d := d3)
    (by intro hc; rw [hc] at hlen3; simp at hlen3; omega)
  obtain ⟨hlt2, _, hd4cards, _⟩ := draw_spec hdr2
  have hnd4 : d4.cards.Nodup := by
    rw [hd4cards]
    exact hnd3.sublist (List.eraseIdx_sublist _ _)
  have hlen4 : d4.cards.length + 1 = d3.cards.length := by
    rw [hd4cards, List.length_eraseIdx_of_lt hlt2]
    omega
  obtain ⟨hc1, _, _, _, _, _, _⟩ :=
    drawSeq_spec 5 0 d4 (fun k => rng (k + 2)) hnd4 (by omega)
  refine ⟨(verify os.1 os.2 player (o1, o2) (drawSeq (fun k => rng (k + 2)) 0 5 d4).1).1,
    ?_, verify_winner_cases _ _ _ _ _⟩
  simp only [runTrial, hdr1, hdr2, hc1]
  simp

/-- Each loop iteration adds exactly one to the win/loss/tie tally. -/
theorem foldl_mcStep_sum (player : Card × Card) (rngs : Nat → Nat → Nat)
    (oss : Nat → Orders × Orders) :
    ∀ (idxs : List Nat) (acc : Nat × Nat × Nat),
      (idxs.foldl (mcStep player rngs oss) acc).1 +
      (idxs.foldl (mcStep player rngs oss) acc).2.1 +
      (idxs.foldl (mcStep player rngs oss) acc).2.2 =
      acc.1 + acc.2.1 + acc.2.2 + idxs.length := by
  intro idxs
  induction idxs with
  | nil => intro acc; simp
  | cons i idxs ih =>
    intro acc
    rw [List.foldl_cons, ih (mcStep player rngs oss acc i)]
    obtain ⟨w, hw, hcases⟩ := runTrial_isSome player (oss i) (rngs i)
    simp only [mcStep, hw]
    rcases hcases with rfl | rfl | rfl <;> simp <;> omega

/-- C4: no trial is ever dropped (the deck cannot exhaust), so for N
requested trials wins + losses + ties = N exactly, the stored total is N,
and winRate + tieRate + derived lossRate is exactly 100. -/
theorem c4_simulation_totals (player : Card × Card) (num : Nat)
    (rngs : Nat → Nat → Nat) (oss : Nat → Orders × Orders) :
    (∀ (os : Orders × Orders) (rng : Nat → Nat), (runTrial player os rng).isSome = true) ∧
    (monte_carlo_simulation player num rngs oss).total_games = num ∧
    (monte_carlo_simulation player num rngs oss).wins +
      (monte_carlo_simulation player num rngs oss).losses +
      (monte_carlo_simulation player num rngs oss).ties = num ∧
    (monte_carlo_simulation player num rngs oss).win_rate +
      (monte_carlo_simulation player num rngs oss).tie_rate +
      (100 - (monte_carlo_simulation player num rngs oss).win_rate -
        (monte_carlo_simulation player num rngs oss).tie_rate) = 100 := by
  refine ⟨?_, ?_, ?_, by ring⟩
  · intro os rng
    obtain ⟨w, hw, _⟩ := runTrial_isSome player os rng
    rw [hw]
    rfl
  · simp [monte_carlo_simulation, SimulationResults.new]
  · simp only [monte_carlo_simulation, SimulationResults.new]
    have := foldl_mcStep_sum player rngs oss (List.range num) (0, 0, 0)
    simpa using this

/-- Witness for C4 at concrete arguments. -/
theorem c4_simulation_totals_witness :
    (monte_carlo_simulation (⟨.Ace, .Spades⟩, ⟨.King, .Spades⟩) 3 (fun _ _ => 0)
      (fun _ => (⟨[], [], [], [], []⟩, ⟨[], [], [], [], []⟩))).total_games = 3 :=
  (c4_simulation_totals (⟨.Ace, .Spades⟩, ⟨.King, .Spades⟩) 3 (fun _ _ => 0)
    (fun _ => (⟨[], [], [], [], []⟩, ⟨[], [], [], [], []⟩))).2.1

/-!
### Comparator properties (claim C5)
-/

theorem natCompare_swap (a b : Nat) : natCompare b a = (natCompare a b).swap := by
  unfold natCompare
  split_ifs <;> first
    | rfl
    | omega

theorem natCompare_self (a : Nat) : natCompare a a = .eq := by
  unfold natCompare
  split_ifs <;> first
    | rfl
    | omega

theorem rankListCompare_swap : ∀ xs ys : List Rank,
    rankListCompare ys xs = (rankListCompare xs ys).swap := by
  intro xs
  induction xs with
  | nil => intro ys; cases ys <;> rfl
  | cons x xs ih =>
    intro ys
    cases ys with
    | nil => rfl
    | cons y ys =>
      simp only [rankListCompare]
      rw [natCompare_swap x.value y.value]
      rcases natCompare x.value y.value <;> simp [Ordering.swap, ih ys]

theorem rankListCompare_self : ∀ xs : List Rank, rankListCompare xs xs = .eq := by
  intro xs
  induction xs with
  | nil => rfl
  | cons x xs ih => simp only [rankListCompare, natCompare_self, ih]

/-- C5: `verify` is antisymmetric — swapping the two hand arguments (and
the hash-map order bundles their evaluations consume) turns "Hand A" into
"Hand B" and conversely and fixes "Tie"; and whenever the two evaluations
are fully equal the outcome is "Tie". -/
theorem c5_verify_antisymmetric :
    (∀ (osA osB : Orders) (a b : Card × Card) (community : List Card),
      ((verify osA osB a b community).1 = "Hand A" ↔
        (verify osB osA b a community).1 = "Hand B") ∧
      ((verify osA osB a b community).1 = "Hand B" ↔
        (verify osB osA b a community).1 = "Hand A") ∧
      ((verify osA osB a b community).1 = "Tie" ↔
        (verify osB osA b a community).1 = "Tie")) ∧
    (∀ (osA osB : Orders) (a b : Card × Card) (community : List Card),
      evaluate_hand osA a community = evaluate_hand osB b community →
      (verify osA osB a b community).1 = "Tie") := by
  constructor
  · intro osA osB a b community
    simp only [verify]
    rw [natCompare_swap (evaluate_hand osA a community).rank.toNat
          (evaluate_hand osB b community).rank.toNat,
        rankListCompare_swap (evaluate_hand osA a community).high_cards
          (evaluate_hand osB b community).high_cards]
    rcases natCompare (evaluate_hand osA a community).rank.toNat
        (evaluate_hand osB b community).rank.toNat <;>
      rcases rankListCompare (evaluate_hand osA a community).high_cards
        (evaluate_hand osB b community).high_cards <;>
      simp [Ordering.swap] <;> decide
  · intro osA osB a b community h
    simp only [verify, h, natCompare_self, rankListCompare_self]

/-- Witness for C5: identical hands with identical orders evaluate equal,
so the comparison is a tie. -/
theorem c5_verify_antisymmetric_witness :
    (verify ⟨[], [], [], [], []⟩ ⟨[], [], [], [], []⟩ (⟨.Ace, .Spades⟩, ⟨.King, .Spades⟩)
      (⟨.Ace, .Spades⟩, ⟨.King, .Spades⟩) []).1 = "Tie" :=
  c5_verify_antisymmetric.2 _ _ _ _ [] rfl

/-- C2: `find_straight` succeeds exactly when five consecutive rank values
are present or the wheel A-2-3-4-5 is present; when only the wheel is
present the reported high card is Five; and the known scenario
{A♠,2♠} + {3♠,4♠,5♥,9♦,K♣} evaluates to Straight with high card Five (for
every rank-count map iteration order), not HighCard. -/
theorem c2_straight_iff_run_or_wheel :
    (∀ ranks : List Rank,
      ((find_straight ranks).isSome = (specHasRun ranks || specWheel ranks)) ∧
      (specWheel ranks = true → specHasRun ranks = false →
        find_straight ranks = some .Five)) ∧
    (∀ os : Orders, evaluate_hand os wheelHole wheelComm = ⟨.Straight, [.Five]⟩) := by
  constructor
  · intro ranks
    have hpw := pairwise_sortRanksDesc_dedup ranks
    have hmem : ∀ r : Rank, r ∈ sortRanksDesc ranks.dedup ↔ r ∈ ranks := fun r =>
      mem_sortRanksDesc_dedup
    have hfs : find_straight ranks =
        (match scanRun (sortRanksDesc ranks.dedup) with
        | some h => some h
        | none =>
          if Rank.Ace ∈ sortRanksDesc ranks.dedup ∧ Rank.Two ∈ sortRanksDesc ranks.dedup ∧
             Rank.Three ∈ sortRanksDesc ranks.dedup ∧ Rank.Four ∈ sortRanksDesc ranks.dedup ∧
             Rank.Five ∈ sortRanksDesc ranks.dedup then
            some Rank.Five
          else
            none) := rfl
    rcases hscan : scanRun (sortRanksDesc ranks.dedup) with _ | h
    · have hnorun : specHasRun ranks = false := by
        by_contra hne
        rw [Bool.not_eq_false] at hne
        obtain ⟨v, hv6, _, hmemv⟩ := specHasRun_iff.mp hne
        have hsome : (scanRun (sortRanksDesc ranks.dedup)).isSome :=
          scanRun_complete _ v hpw hv6 (fun k hk => by
            obtain ⟨r, hr, hrv⟩ := hmemv k hk
            exact ⟨r, (hmem r).mpr hr, hrv⟩)
        rw [hscan] at hsome
        simp at hsome
      rw [hfs, hscan]
      by_cases hw : Rank.Ace ∈ sortRanksDesc ranks.dedup ∧
          Rank.Two ∈ sortRanksDesc ranks.dedup ∧ Rank.Three ∈ sortRanksDesc ranks.dedup ∧
          Rank.Four ∈ sortRanksDesc ranks.dedup ∧ Rank.Five ∈ sortRanksDesc ranks.dedup
      · have hsw : specWheel ranks = true := by
          simp only [specWheel, Bool.and_eq_true, decide_eq_true_eq]
          exact ⟨⟨⟨⟨(hmem _).mp hw.1, (hmem _).mp hw.2.1⟩, (hmem _).mp hw.2.2.1⟩,
            (hmem _).mp hw.2.2.2.1⟩, (hmem _).mp hw.2.2.2.2⟩
        rw [if_pos hw]
        exact ⟨by simp [hnorun, hsw], fun _ _ => rfl⟩
      · have hsw : specWheel ranks = false := by
          rw [Bool.eq_false_iff]
          intro hswt
          simp only [specWheel, Bool.and_eq_true, decide_eq_true_eq] at hswt
          exact hw ⟨(hmem _).mpr hswt.1.1.1.1, (hmem _).mpr hswt.1.1.1.2,
            (hmem _).mpr hswt.1.1.2, (hmem _).mpr hswt.1.2, (hmem _).mpr hswt.2⟩
        rw [if_neg hw]
        refine ⟨by simp [hnorun, hsw], fun hswt _ => ?_⟩
        rw [hswt] at hsw
        cases hsw
    · obtain ⟨h6, hrun⟩ := scanRun_sound _ h hscan
      have hhr : specHasRun ranks = true := by
        rw [specHasRun_iff]
        refine ⟨h.value, h6, by have := rank_value_le_fourteen h; omega, fun k hk => ?_⟩
        obtain ⟨r, hr, hrv⟩ := hrun k hk
        exact ⟨r, (hmem r).mp hr, hrv⟩
      rw [hfs, hscan]
      refine ⟨by simp [hhr], fun _ hfalse => ?_⟩
      rw [hhr] at hfalse
      cases hfalse
  · intro os
    show evalSorted _ _ = _
    unfold evalSorted
    rw [show check_royal_flush (sortCardsDesc (wheelHole.1 :: wheelHole.2 :: wheelComm)) = none
          from by decide,
        show check_straight_flush (sortCardsDesc (wheelHole.1 :: wheelHole.2 :: wheelComm)) = none
          from by decide,
        check_four_of_a_kind_none _ (by decide),
        check_full_house_none _ (by decide),
        show check_flush (sortCardsDesc (wheelHole.1 :: wheelHole.2 :: wheelComm)) = none
          from by decide,
        show check_straight (sortCardsDesc (wheelHole.1 :: wheelHole.2 :: wheelComm)) =
            some ⟨.Straight, [.Five]⟩ from by decide]

/-- Witness for C2: the wheel-only rank set {A,2,3,4,5,9,K} is reported as
a straight with high card Five. -/
theorem c2_straight_iff_run_or_wheel_witness :
    find_straight [Rank.Ace, .Two, .Three, .Four, .Five, .Nine, .King] = some .Five :=
  (c2_straight_iff_run_or_wheel.1
    [Rank.Ace, .Two, .Three, .Four, .Five, .Nine, .King]).2 (by decide) (by decide)

/-- C1: the claim says FullHouse detection always assigns the highest
qualifying rank as trips and the highest remaining qualifying rank as pair
(a descending scan of the rank groups).  The code scans the rank-count map
in whatever order the `HashMap` yields: under the possible iteration order
`[Two, Ace, King]` the hand with trips of Aces and trips of Twos is reported
as `[Two, Ace]`, while the order `[Ace, King, Two]` yields `[Ace, Two]` —
the scan is not descending, and the tie-break depends on the map order. -/
theorem c1_full_house_scan_order_dependent :
    ValidOrders osLow fhCards ∧ ValidOrders osHigh fhCards ∧
    evaluate_hand osLow fhHole fhComm = ⟨.FullHouse, [.Two, .Ace]⟩ ∧
    evaluate_hand osHigh fhHole fhComm = ⟨.FullHouse, [.Ace, .Two]⟩ := by
  decide

/-- C3: the claim says `evaluate_hand` is deterministic across invocations
for a fixed input.  Each invocation builds fresh `HashMap`s whose iteration
orders may differ; with the two possible order resolutions `osLow` and
`osHigh` for the same 7-card input, the returned tie-break sequences
differ, so two invocations need not agree. -/
theorem c3_evaluate_hand_not_invocation_deterministic :
    ValidOrders osLow fhCards ∧ ValidOrders osHigh fhCards ∧
    evaluate_hand osLow fhHole fhComm ≠ evaluate_hand osHigh fhHole fhComm := by
  decide

/-- Witness for C6: swapping the hole cards and rotating the board leaves
the evaluation unchanged. -/
theorem c6_evaluate_hand_perm_invariant_witness :
    evaluate_hand ⟨[], [], [], [], []⟩ wheelHole wheelComm =
      evaluate_hand ⟨[], [], [], [], []⟩ (⟨.Two, .Spades⟩, ⟨.Ace, .Spades⟩)
        [⟨.Five, .Hearts⟩, ⟨.Nine, .Diamonds⟩, ⟨.King, .Clubs⟩, ⟨.Three, .Spades⟩,
         ⟨.Four, .Spades⟩] :=
  by
  have hp : List.Perm (wheelHole.1 :: wheelHole.2 :: wheelComm)
      [⟨.Two, .Spades⟩, ⟨.Ace, .Spades⟩, ⟨.Five, .Hearts⟩, ⟨.Nine, .Diamonds⟩,
       ⟨.King, .Clubs⟩, ⟨.Three, .Spades⟩, ⟨.Four, .Spades⟩] := by decide
  exact (c6_evaluate_hand_perm_invariant ⟨[], [], [], [], []⟩ wheelHole
    (⟨.Two, .Spades⟩, ⟨.Ace, .Spades⟩) wheelComm
    [⟨.Five, .Hearts⟩, ⟨.Nine, .Diamonds⟩, ⟨.King, .Clubs⟩, ⟨.Three, .Spades⟩,
     ⟨.Four, .Spades⟩] hp).1

end Poker
